import Mathlib

/-!
Verification of the Maximum-Flow-Blocker-with-SAT solver.

A shallow embedding of `mfbp_with_sat.py` and `inputParser.py`.

* Python `dict`s become association lists with insertion-order/overwrite
  semantics (`dinsert` / `dlookup`).
* CNF clauses are lists of signed integer literals, exactly as in the code;
  an assignment is a natural number read as a bitmask (variable `v` is true
  iff bit `v - 1` is set), matching pysat models where a model contains the
  positive literal of each true variable.
* The external SAT oracle (Glucose3) and the external pseudo-Boolean encoder
  (pblib's `Pb2cnf`) are black-box collaborators: they appear as function
  parameters (`SatOracle`, `PBEnc`).  Concrete, correct instances
  (`bruteOracle`, `subsetEncoder`) are supplied for running the solver on
  concrete instances.
* Python exceptions that the embedded fragments can raise are reified in
  `PyError`.  `PyError.nonTermination` is an artifact of modelling the
  `while` loop with fuel; the driver supplies fuel that provably suffices.
-/

namespace MFBP

/-- Python `dict` lookup: the value stored at key `k`, if any.  Keys are
unique whenever the list is built with `dinsert`, so "first match" agrees
with Python semantics. -/
def dlookup {K V : Type} [DecidableEq K] (k : K) (d : List (K × V)) : Option V :=
  (d.find? (fun p => p.1 = k)).map (·.2)

/-- Python `dict` assignment `d[k] = v`: overwrite in place if the key is
present, else append at the end (Python dicts preserve insertion order). -/
def dinsert {K V : Type} [DecidableEq K] (k : K) (v : V) : List (K × V) → List (K × V)
  | [] => [(k, v)]
  | (k', v') :: rest => if k' = k then (k, v) :: rest else (k', v') :: dinsert k v rest

/-- Python `k in d`. -/
def dmem {K V : Type} [DecidableEq K] (k : K) (d : List (K × V)) : Bool :=
  (dlookup k d).isSome

/-- Python `sum(d.values())`. -/
def dvaluesSum {K : Type} (d : List (K × Nat)) : Nat :=
  (d.map (·.2)).sum

/-- Truth of the signed literal `l` under the bitmask assignment `m`
(variable `v` is true iff bit `v - 1` of `m` is set). -/
def litSat (m : Nat) (l : Int) : Bool :=
  if 0 ≤ l then m.testBit (l.toNat - 1) else ! m.testBit ((-l).toNat - 1)

/-- A clause (disjunction of literals) is satisfied. -/
def clauseSat (m : Nat) (c : List Int) : Bool :=
  c.any (litSat m)

/-- A CNF formula (conjunction of clauses) is satisfied. -/
def cnfSat (m : Nat) (f : List (List Int)) : Bool :=
  f.all (clauseSat m)

/-- Truth of variable `v` under assignment `m` (pysat: `v in model`). -/
def varTrue (m : Nat) (v : Nat) : Bool :=
  m.testBit (v - 1)

/-- The largest variable index mentioned in a formula. -/
def cnfMaxVar (f : List (List Int)) : Nat :=
  f.foldl (fun acc c => c.foldl (fun a l => max a l.natAbs) acc) 0

/-- A problem instance: the fields of `MFBPwithSAT` that `solve_mfbp` fills
in from the parsed input, before `solve_with_binary_search` runs. -/
structure Instance where
  nodes : List Nat
  links : List (Nat × Nat)
  capacities : List ((Nat × Nat) × Nat)
  blocker_costs : List ((Nat × Nat) × Nat)
  source : Nat
  destination : Nat
  target_flow : Nat
  deriving Repr, DecidableEq

/-- The mutable solver state of `MFBPwithSAT`: the variable counter, the CNF
under construction, and the four variable dictionaries. -/
structure SolverSt where
  next_aux_var : Nat
  cnf : List (List Int)
  block_vars : List ((Nat × Nat) × Nat)
  mc_vars : List ((Nat × Nat) × Nat)
  source_vars : List (Nat × Nat)
  duality_vars : List (Nat × Nat)
  deriving Repr, DecidableEq

/-- The state right after `__init__` / `set_next_aux_var(1)`:
counter at 1, everything else empty. -/
def initSt : SolverSt :=
  { next_aux_var := 1, cnf := [], block_vars := [], mc_vars := [],
    source_vars := [], duality_vars := [] }

/-- First loop of `create_variables`: one fresh `block` variable per link
(`allocate_variables(1)` returns the counter and bumps it). -/
def blockVarsLoop : List (Nat × Nat) → SolverSt → SolverSt
  | [], st => st
  | l :: rest, st =>
    blockVarsLoop rest
      { st with next_aux_var := st.next_aux_var + 1,
                block_vars := dinsert l st.next_aux_var st.block_vars }

/-- Second loop of `create_variables`: one fresh `mc` variable per link. -/
def mcVarsLoop : List (Nat × Nat) → SolverSt → SolverSt
  | [], st => st
  | l :: rest, st =>
    mcVarsLoop rest
      { st with next_aux_var := st.next_aux_var + 1,
                mc_vars := dinsert l st.next_aux_var st.mc_vars }

/-- Third loop of `create_variables`: one fresh `side` variable per node. -/
def sourceVarsLoop : List Nat → SolverSt → SolverSt
  | [], st => st
  | n :: rest, st =>
    sourceVarsLoop rest
      { st with next_aux_var := st.next_aux_var + 1,
                source_vars := dinsert n st.next_aux_var st.source_vars }

/-- `create_variables`: blocking, min-cut and source-side variables. -/
def create_variables (inst : Instance) (st : SolverSt) : SolverSt :=
  sourceVarsLoop inst.nodes (mcVarsLoop inst.links (blockVarsLoop inst.links st))

/-- The duality loop of `create_flow_conservation_constraints`: for each link
whose tail has no `dual` variable yet, allocate one and append the clause
pair `(side(tail) ∨ dual(tail))`, `(¬side(tail) ∨ ¬dual(tail))`.
Python raises `KeyError` (here: `none`) if the tail has no `side` variable. -/
def dualLoop : List (Nat × Nat) → SolverSt → Option SolverSt
  | [], st => some st
  | (_, t) :: rest, st =>
    if dmem t st.duality_vars then dualLoop rest st
    else
      match dlookup t st.source_vars with
      | none => none
      | some sv =>
        dualLoop rest
          { st with next_aux_var := st.next_aux_var + 1,
                    duality_vars := dinsert t st.next_aux_var st.duality_vars,
                    cnf := st.cnf ++
                      [[(sv : Int), (st.next_aux_var : Int)],
                       [-(sv : Int), -(st.next_aux_var : Int)]] }

/-- The final loop of `create_flow_conservation_constraints`: the 4-literal
clause `mc ∨ block ∨ side(head) ∨ dual(tail)` for every link, with every
literal positive, exactly as in the source (line 71). -/
def linkClauseLoop : List (Nat × Nat) → SolverSt → Option SolverSt
  | [], st => some st
  | (h, t) :: rest, st =>
    match dlookup (h, t) st.mc_vars, dlookup (h, t) st.block_vars,
          dlookup h st.source_vars, dlookup t st.duality_vars with
    | some mc, some bl, some sh, some dt =>
      linkClauseLoop rest
        { st with cnf := st.cnf ++ [[(mc : Int), (bl : Int), (sh : Int), (dt : Int)]] }
    | _, _, _, _ => none

/-- `create_flow_conservation_constraints`: unit clauses for the source and
destination sides, then the duality loop, then the per-link clause loop. -/
def create_flow_conservation_constraints (inst : Instance) (st : SolverSt) :
    Option SolverSt :=
  match dlookup inst.source st.source_vars, dlookup inst.destination st.source_vars with
  | some svSrc, some svDst =>
    (dualLoop inst.links
        { st with cnf := st.cnf ++ [[(svSrc : Int)], [-(svDst : Int)]] }).bind
      (linkClauseLoop inst.links)
  | _, _ => none

/-- The signature of the external pseudo-Boolean encoder (`Pb2cnf.encode`):
weighted literals, a bound `K` and the first free auxiliary variable go in;
a clause list and `get_biggest_returned_auxvar()` come out. -/
def PBEnc : Type :=
  List (Nat × Nat) → Nat → Nat → List (List Int) × Nat

/-- The weighted-literal list for a pseudo-Boolean constraint: pairs of the
stored variable and the stored weight for every link, Python `KeyError`
(missing dictionary entry) mapped to `none`. -/
def pbLits (vars_d weights : List ((Nat × Nat) × Nat)) :
    List (Nat × Nat) → Option (List (Nat × Nat))
  | [] => some []
  | l :: rest =>
    match dlookup l vars_d, dlookup l weights, pbLits vars_d weights rest with
    | some v, some w, some tl => some ((v, w) :: tl)
    | _, _, _ => none

/-- `create_target_flow_constraint`: encode `Σ capacity·mc ≤ target_flow`
through the external encoder, append its clauses, and re-synchronize
`next_aux_var` to `get_biggest_returned_auxvar() + 1`. -/
def create_target_flow_constraint (enc : PBEnc) (inst : Instance) (st : SolverSt) :
    Option SolverSt :=
  match pbLits st.mc_vars inst.capacities inst.links with
  | none => none
  | some lits =>
    let r := enc lits inst.target_flow st.next_aux_var
    some { st with cnf := st.cnf ++ r.1, next_aux_var := r.2 + 1 }

/-- `create_objective_constraint`: encode `Σ blocker_cost·block ≤ budget`
through the external encoder, append its clauses, and re-synchronize
`next_aux_var` to `get_biggest_returned_auxvar() + 1`. -/
def create_objective_constraint (enc : PBEnc) (inst : Instance) (budget : Nat)
    (st : SolverSt) : Option SolverSt :=
  match pbLits st.block_vars inst.blocker_costs inst.links with
  | none => none
  | some lits =>
    let r := enc lits budget st.next_aux_var
    some { st with cnf := st.cnf ++ r.1, next_aux_var := r.2 + 1 }

/-- The signature of the external SAT oracle: one `Glucose3` instance is
created, the current formula appended, `solve()` called, and on success
`get_model()` read back.  `some m` is a satisfying assignment, `none` means
unsatisfiable. -/
def SatOracle : Type :=
  List (List Int) → Option Nat

/-- Python exceptions reachable from the embedded fragments, plus the
spec's `UnsolvableInstanceError` (so that claims about it are statable) and
`nonTermination`, the artifact of running the `while` loop on fuel (the
driver passes fuel that provably suffices, see the termination theorem). -/
inductive PyError where
  | keyError
  | typeError
  | stopIteration
  | malformedInputError
  | unsolvableInstanceError
  | nonTermination
  deriving Repr, DecidableEq

/-- Ghost record of one binary-search iteration: the formula submitted to
the oracle, the budget `c_mid` it was built for, and the value of
`next_aux_var` when the budget constraint was encoded. -/
structure TraceEntry where
  cnf : List (List Int)
  mid : Nat
  start : Nat
  deriving Repr, DecidableEq

/-- The loop state of `solve_with_binary_search`: the interval bounds, the
solver object state, the best model found (`self.solution`), and a ghost
trace of the oracle queries issued so far. -/
structure LoopSt where
  c_min : Nat
  c_max : Nat
  sst : SolverSt
  solution : Option Nat
  trace : List TraceEntry
  deriving Repr, DecidableEq

/-- One iteration of the `while c_min < c_max` loop: truncate the CNF back
to the fixed prefix, append the budget clauses for `c_mid`, submit the
formula to a fresh oracle, and update the interval and `self.solution`. -/
def bsStep (enc : PBEnc) (oracle : SatOracle) (inst : Instance)
    (fixedCount : Nat) (ls : LoopSt) : Except PyError LoopSt :=
  let c_mid := (ls.c_min + ls.c_max) / 2
  let truncSt := { ls.sst with cnf := ls.sst.cnf.take fixedCount }
  match create_objective_constraint enc inst c_mid truncSt with
  | none => .error .keyError
  | some st' =>
    let tr := ls.trace ++ [⟨st'.cnf, c_mid, truncSt.next_aux_var⟩]
    match oracle st'.cnf with
    | some m =>
      .ok { c_min := ls.c_min, c_max := c_mid, sst := st', solution := some m, trace := tr }
    | none =>
      .ok { c_min := c_mid + 1, c_max := ls.c_max, sst := st', solution := ls.solution, trace := tr }

/-- The `while c_min < c_max` loop, run on fuel. -/
def bsLoop (enc : PBEnc) (oracle : SatOracle) (inst : Instance)
    (fixedCount : Nat) : Nat → LoopSt → Except PyError LoopSt
  | 0, ls => if ls.c_min < ls.c_max then .error .nonTermination else .ok ls
  | fuel + 1, ls =>
    if ls.c_min < ls.c_max then
      (bsStep enc oracle inst fixedCount ls).bind (bsLoop enc oracle inst fixedCount fuel)
    else .ok ls

/-- `[(head, tail) for (head, tail), var in self.block_vars.items() if var in self.solution]`. -/
def blockedLinks (block_vars : List ((Nat × Nat) × Nat)) (m : Nat) : List (Nat × Nat) :=
  (block_vars.filter (fun p => varTrue m p.2)).map (·.1)

/-- `solve_with_binary_search`: reset the counter, compute the budget
interval `[0, Σ blocker_cost]`, build the fixed constraints, record the
fixed clause count, run the loop, and return either the
`(blocked_links, c_max)` pair or Python's `None` (here `Option.none`). -/
def solve_with_binary_search (enc : PBEnc) (oracle : SatOracle) (inst : Instance) :
    Except PyError (Option (List (Nat × Nat) × Nat)) :=
  let c_min : Nat := 0
  let c_max : Nat := dvaluesSum inst.blocker_costs
  let st1 := create_variables inst initSt
  match create_flow_conservation_constraints inst st1 with
  | none => .error .keyError
  | some st2 =>
    match create_target_flow_constraint enc inst st2 with
    | none => .error .keyError
    | some st3 =>
      let fixedCount := st3.cnf.length
      match bsLoop enc oracle inst fixedCount (c_max + 1)
          { c_min := c_min, c_max := c_max, sst := st3, solution := none, trace := [] } with
      | .error e => .error e
      | .ok ls =>
        match ls.solution with
        | some m => .ok (some (blockedLinks ls.sst.block_vars m, ls.c_max))
        | none => .ok none

/-- `solve_mfbp`'s final step: `blocked_links, optimal_cost =
mfbp_solver.solve_with_binary_search()`.  Unpacking Python's `None` into a
pair raises `TypeError`. -/
def solve_mfbp (enc : PBEnc) (oracle : SatOracle) (inst : Instance) :
    Except PyError (List (Nat × Nat) × Nat) :=
  match solve_with_binary_search enc oracle inst with
  | .error e => .error e
  | .ok none => .error .typeError
  | .ok (some p) => .ok p

/-- A concrete, correct SAT oracle for concrete runs: scan all assignments
over the variables mentioned in the formula and return the first
satisfying one. -/
def bruteOracle : SatOracle :=
  fun f => (List.range (2 ^ cnfMaxVar f)).find? (fun m => cnfSat m f)

/-- A concrete, correct pseudo-Boolean encoder for concrete runs: for
`Σ wᵢ·xᵢ ≤ K` it emits, for every sub-multiset of literals whose weights
exceed `K`, the clause negating them all; it allocates no auxiliary
variables, so (like pblib's `AuxVarManager` when none are requested) it
reports `start - 1` as the biggest returned auxiliary variable. -/
def subsetEncoder : PBEnc :=
  fun lits K start =>
    (((lits.sublists).filter (fun s => K < (s.map (·.2)).sum)).map
        (fun s => s.map (fun p => -(p.1 : Int))),
     start - 1)

end MFBP

namespace InputParser

open MFBP (dinsert dlookup PyError)

/-- One data row of `link.csv`, with the seven integer fields the code
reads.  Python `int` is unbounded, so fields are `Int` (negative
capacities and costs are representable). -/
structure LinkRow where
  linkId : Int
  srcNodeId : Int
  srcIntfId : Int
  dstNodeId : Int
  dstIntfId : Int
  bandwidth : Int
  cost : Int
  deriving Repr, DecidableEq

/-- The dictionary returned by `parse_all`. -/
structure ParsedData where
  nodes : List Int
  links : List (Int × Int)
  capacities : List ((Int × Int) × Int)
  blocker_costs : List ((Int × Int) × Int)
  source : Int
  destination : Int
  deriving Repr, DecidableEq

/-- `parse_nodes`, applied to the integer in column 0 of every row after
the header of `node.csv`: each is appended to the node list. -/
def parse_nodes (nodeRows : List Int) : List Int :=
  nodeRows

/-- The body of the `parse_links` row loop, threading the
`(links, capacities, blocker_costs)` state. -/
def linkRowsLoop :
    List LinkRow →
      List (Int × Int) × List ((Int × Int) × Int) × List ((Int × Int) × Int) →
      List (Int × Int) × List ((Int × Int) × Int) × List ((Int × Int) × Int)
  | [], acc => acc
  | r :: rest, (links, caps, costs) =>
    linkRowsLoop rest
      (links ++ [(r.srcNodeId, r.dstNodeId)],
       dinsert (r.srcNodeId, r.dstNodeId) r.bandwidth caps,
       dinsert (r.srcNodeId, r.dstNodeId) r.cost costs)

/-- `parse_links`, applied to the data rows of `link.csv` (the header line
has already been consumed by `csv.DictReader` as field names).  The extra
explicit `next(csv_reader)` discards the first data row — or raises
`StopIteration` (here `none`) when there is none — and the loop then
processes the remaining rows. -/
def parse_links (rows : List LinkRow) :
    Option (List (Int × Int) × List ((Int × Int) × Int) × List ((Int × Int) × Int)) :=
  match rows with
  | [] => none
  | _ :: rest => some (linkRowsLoop rest ([], [], []))

/-- `parse_service`: the two semicolon-separated integers of `service.txt`. -/
def parse_service (service : Int × Int) : Int × Int :=
  service

/-- `parse_all`: run the three parsers and return the data dictionary.
No validation of any kind is performed. -/
def parse_all (nodeRows : List Int) (linkRows : List LinkRow) (service : Int × Int) :
    Except PyError ParsedData :=
  match parse_links linkRows with
  | none => .error .stopIteration
  | some (links, caps, costs) =>
    .ok { nodes := parse_nodes nodeRows, links := links, capacities := caps,
          blocker_costs := costs,
          source := (parse_service service).1, destination := (parse_service service).2 }

/-- The separate characterizations of `parse_links`' three outputs, used to
state what the row loop computes: the link list in row order. -/
def linksOfRows (rows : List LinkRow) : List (Int × Int) :=
  rows.map (fun q => (q.srcNodeId, q.dstNodeId))

/-- The capacities dictionary built from a row list. -/
def capsOfRows (rows : List LinkRow) : List ((Int × Int) × Int) :=
  rows.foldl (fun d q => dinsert (q.srcNodeId, q.dstNodeId) q.bandwidth d) []

/-- The blocker-costs dictionary built from a row list. -/
def costsOfRows (rows : List LinkRow) : List ((Int × Int) × Int) :=
  rows.foldl (fun d q => dinsert (q.srcNodeId, q.dstNodeId) q.cost d) []

/-- A malformed input: after the discarded first data row, the remaining
link `(1, 3)` references the unknown node `3`, has negative capacity `-5`
and negative blocker cost `-2`, and the service request names the same
node `1` as source and destination. -/
def malformedNodeRows : List Int := [1, 2]

/-- The link rows of the malformed input (first data row is the one
`parse_links` discards). -/
def malformedLinkRows : List LinkRow :=
  [⟨1, 1, 0, 2, 0, 10, 3⟩, ⟨2, 1, 0, 3, 0, -5, -2⟩]

/-- The service request of the malformed input: source = destination. -/
def malformedService : Int × Int := (1, 1)

end InputParser

namespace MFBP

/-- The spec's "single bottleneck" scenario: one link from the source `1`
straight to the destination `2`, capacity 10, blocker cost 3,
target flow 0. -/
def singleLinkInst : Instance :=
  { nodes := [1, 2], links := [(1, 2)], capacities := [((1, 2), 10)],
    blocker_costs := [((1, 2), 3)], source := 1, destination := 2, target_flow := 0 }

/-- The solver state after `create_variables` and
`create_flow_conservation_constraints` on `singleLinkInst`:
block var 1, mc var 2, side vars 3 (node 1) and 4 (node 2),
dual var 5 (tail 2). -/
def singleLinkFixedSt : SolverSt :=
  { next_aux_var := 6,
    cnf := [[3], [-4], [4, 5], [-4, -5], [2, 1, 3, 5]],
    block_vars := [((1, 2), 1)],
    mc_vars := [((1, 2), 2)],
    source_vars := [(1, 3), (2, 4)],
    duality_vars := [(2, 5)] }

/-- The solver state after `create_target_flow_constraint` (with the
`subsetEncoder`) on `singleLinkFixedSt`: capacity 10 > target 0, so the
encoder adds the unit clause `¬mc`; no auxiliary variables are used, so
the counter stays at 6. -/
def singleLinkTargetSt : SolverSt :=
  { next_aux_var := 6,
    cnf := [[3], [-4], [4, 5], [-4, -5], [2, 1, 3, 5], [-2]],
    block_vars := [((1, 2), 1)],
    mc_vars := [((1, 2), 2)],
    source_vars := [(1, 3), (2, 4)],
    duality_vars := [(2, 5)] }

/-- An instance on which every binary-search query is unsatisfiable: the
only link runs from the destination `2` back to the source `1`, so its
4-literal clause can only be met by `mc` or `block`, and neither fits the
budgets `1` and `2` that the search tries (capacity 5 > target 0,
cost 3 > 2). -/
def reverseLinkInst : Instance :=
  { nodes := [1, 2], links := [(2, 1)], capacities := [((2, 1), 5)],
    blocker_costs := [((2, 1), 3)], source := 1, destination := 2, target_flow := 0 }

/-- An instance whose total blocker cost is 0, so the binary-search loop
body never runs. -/
def zeroCostInst : Instance :=
  { nodes := [1, 2], links := [(1, 2)], capacities := [((1, 2), 10)],
    blocker_costs := [((1, 2), 0)], source := 1, destination := 2, target_flow := 0 }

/-- Invariant of the duality loop: every allocated `dual` variable comes
with its tail's `side` variable and the exactly-one-of-two clause pair in
the CNF. -/
def DualInv (st : SolverSt) : Prop :=
  ∀ t dv, dlookup t st.duality_vars = some dv →
    ∃ sv, dlookup t st.source_vars = some sv ∧
      [(sv : Int), (dv : Int)] ∈ st.cnf ∧
      [-(sv : Int), -(dv : Int)] ∈ st.cnf

end MFBP

open MFBP InputParser

/-- C1.  On the spec's single-bottleneck scenario (`singleLinkInst`: one
link from source to destination, capacity 10, blocker cost 3, target flow
0) with a correct SAT oracle and a correct pseudo-Boolean encoder,
`solve_with_binary_search` returns the empty blocked set at cost 0 — not
cost 3 with the link blocked, as the spec requires.  The 4-literal clause
of line 71 uses the positive literal `side(head)`; since `side(source)` is
forced true, the clause is vacuous for this link and the formula is
satisfiable with no blocking at budget 0, even though the true max flow
stays 10. -/
theorem c1_single_bottleneck_run :
    solve_with_binary_search subsetEncoder bruteOracle singleLinkInst =
      .ok (some ([], 0)) := by
  rfl

/-- C2 counterexample.  For `singleLinkInst`, the state after the fixed
constraints is `singleLinkFixedSt`, and the assignment `20` (bits for
variables 3 and 5: `side(1)` and `dual(2)` true, everything else false)
satisfies every fixed clause while the link `(1, 2)` has `block` false,
`mc` false, `side(head)` true and `side(tail)` false — exactly the
crossing the claim says the clauses forbid. -/
theorem c2_crossing_link_counterexample :
    create_flow_conservation_constraints singleLinkInst
        (create_variables singleLinkInst initSt) = some singleLinkFixedSt ∧
    cnfSat 20 singleLinkFixedSt.cnf = true ∧
    dlookup (1, 2) singleLinkFixedSt.block_vars = some 1 ∧ varTrue 20 1 = false ∧
    dlookup (1, 2) singleLinkFixedSt.mc_vars = some 2 ∧ varTrue 20 2 = false ∧
    dlookup 1 singleLinkFixedSt.source_vars = some 3 ∧ varTrue 20 3 = true ∧
    dlookup 2 singleLinkFixedSt.source_vars = some 4 ∧ varTrue 20 4 = false := by
  decide

/-- C3 counterexample.  `parse_all` accepts an input whose only surviving
link `(1, 3)` references the unknown node `3`, carries capacity `-5` and
blocker cost `-2`, and whose service request has source = destination = 1;
it returns the parsed data instead of failing with `MalformedInputError`. -/
theorem c3_malformed_input_accepted :
    parse_all malformedNodeRows malformedLinkRows malformedService =
      .ok { nodes := [1, 2], links := [(1, 3)], capacities := [((1, 3), -5)],
            blocker_costs := [((1, 3), -2)], source := 1, destination := 1 } := by
  rfl

/-- C3 amended.  Construction performs no validation at all: `parse_all`
never fails with `MalformedInputError` on any input (its only failure mode
is the uncaught `StopIteration` of the explicit `next` on a link file with
no data rows); malformed inputs are returned for solving unchecked. -/
theorem c3_amended_no_validation (ns : List Int) (lrs : List LinkRow) (sv : Int × Int) :
    parse_all ns lrs sv ≠ .error .malformedInputError := by
  unfold parse_all
  cases lrs <;> simp [parse_links]

/-- C8 counterexample.  On `reverseLinkInst` every query of the binary
search is unsatisfiable, so no satisfying assignment is ever found; the
condition is surfaced as a plain `None` return from
`solve_with_binary_search`, and the caller's unpacking turns it into a
`TypeError` — not into an `UnsolvableInstanceError`. -/
theorem c8_no_sat_counterexample :
    solve_with_binary_search subsetEncoder bruteOracle reverseLinkInst = .ok none ∧
    solve_mfbp subsetEncoder bruteOracle reverseLinkInst = .error .typeError := by
  exact ⟨rfl, rfl⟩

/-- C9.  `parse_links`, run on a link file whose header was consumed by
`csv.DictReader`, discards the first data row through the explicit
`next(csv_reader)`: its output lists exactly the links, capacities and
blocker costs of the rows from the second data row onward. -/
theorem c9_first_data_row_dropped (r : LinkRow) (rest : List LinkRow) :
    parse_links (r :: rest) = some (linksOfRows rest, capsOfRows rest, costsOfRows rest) := by
  have key : ∀ (rows : List LinkRow) ls cs bs,
      linkRowsLoop rows (ls, cs, bs) =
        (ls ++ linksOfRows rows,
         rows.foldl (fun d q => dinsert (q.srcNodeId, q.dstNodeId) q.bandwidth d) cs,
         rows.foldl (fun d q => dinsert (q.srcNodeId, q.dstNodeId) q.cost d) bs) := by
    intro rows
    induction rows with
    | nil => intro ls cs bs; simp [linkRowsLoop, linksOfRows]
    | cons q rows ih =>
      intro ls cs bs
      simp [linkRowsLoop, linksOfRows, ih, List.foldl]
  simp [parse_links, key, linksOfRows, capsOfRows, costsOfRows]

/-- Helper: `bsStep` can only fail with `KeyError` (a missing dictionary
entry while building the budget constraint). -/
theorem bsStep_error_eq_keyError (enc : PBEnc) (oracle : SatOracle) (inst : Instance)
    (n : Nat) (ls : LoopSt) (e : PyError)
    (h : bsStep enc oracle inst n ls = .error e) : e = .keyError := by
  unfold bsStep at h
  dsimp only at h
  split at h
  · injection h with h
    exact h.symm
  · split at h <;> exact Except.noConfusion h

/-- Helper: `bsLoop` can only fail with `KeyError` or with the fuel
artifact `nonTermination`; in particular never with
`UnsolvableInstanceError`. -/
theorem bsLoop_error_ne_unsolvable (enc : PBEnc) (oracle : SatOracle) (inst : Instance)
    (n : Nat) :
    ∀ (fuel : Nat) (ls : LoopSt) (e : PyError),
      bsLoop enc oracle inst n fuel ls = .error e → e ≠ .unsolvableInstanceError := by
  intro fuel
  induction fuel with
  | zero =>
    intro ls e h
    unfold bsLoop at h
    by_cases hlt : ls.c_min < ls.c_max <;> simp [hlt] at h
    rw [← h]
    simp
  | succ fuel ih =>
    intro ls e h
    unfold bsLoop at h
    by_cases hlt : ls.c_min < ls.c_max <;> simp [hlt] at h
    · rcases hstep : bsStep enc oracle inst n ls with e' | ls'
      · rw [hstep] at h
        simp [Except.bind] at h
        rw [← h]
        have := bsStep_error_eq_keyError enc oracle inst n ls e' hstep
        simp [this]
      · rw [hstep] at h
        simp [Except.bind] at h
        exact ih ls' e h

/-- C8 amended.  When the binary search never finds a satisfying
assignment, `solve_with_binary_search` signals it by returning Python's
`None` instead of a `(blocked_links, cost)` pair — a return distinct from
the ordinary outcome, but not a dedicated error: no
`UnsolvableInstanceError` exists in the code, and `solve_mfbp` can never
surface one (the caller instead crashes with `TypeError` when unpacking the
`None`). -/
theorem c8_amended_no_unsolvable_error (enc : PBEnc) (oracle : SatOracle)
    (inst : Instance) :
    solve_mfbp enc oracle inst ≠ .error .unsolvableInstanceError := by
  unfold solve_mfbp solve_with_binary_search
  rcases h2 : create_flow_conservation_constraints inst (create_variables inst initSt)
      with _ | st2
  · simp [h2]
  · rcases h3 : create_target_flow_constraint enc inst st2 with _ | st3
    · simp [h2, h3]
    · rcases hloop : bsLoop enc oracle inst st3.cnf.length
          (dvaluesSum inst.blocker_costs + 1)
          { c_min := 0, c_max := dvaluesSum inst.blocker_costs, sst := st3,
            solution := none, trace := [] } with e | ls
      · simp only [h2, h3, hloop]
        intro hcon
        exact (bsLoop_error_ne_unsolvable enc oracle inst _ _ _ _ hloop)
          (Except.error.inj hcon)
      · rcases hsol : ls.solution with _ | m <;> simp [h2, h3, hloop, hsol]

/-- C10.  When the binary-search loop finishes without ever recording a
satisfying assignment, `solve_with_binary_search` returns the single value
`None` instead of a pair — in particular when the total blocker cost is 0,
where `c_min = c_max = 0` and the loop body never runs — and the public
entry point `solve_mfbp`, unpacking the result into two values, then
raises `TypeError`. -/
theorem c10_none_return_typeerror (enc : PBEnc) (oracle : SatOracle) (inst : Instance) :
    (∀ st2 st3,
      dvaluesSum inst.blocker_costs = 0 →
      create_flow_conservation_constraints inst (create_variables inst initSt) = some st2 →
      create_target_flow_constraint enc inst st2 = some st3 →
      solve_with_binary_search enc oracle inst = .ok none) ∧
    (solve_with_binary_search enc oracle inst = .ok none →
      solve_mfbp enc oracle inst = .error .typeError) := by
  constructor
  · intro st2 st3 hsum h2 h3
    unfold solve_with_binary_search
    simp [h2, h3, hsum, bsLoop]
  · intro h
    unfold solve_mfbp
    rw [h]

/-- C10 witness: on `zeroCostInst` (total blocker cost 0) the search
returns `None` and `solve_mfbp` raises `TypeError`. -/
theorem c10_none_return_typeerror_witness :
    solve_with_binary_search subsetEncoder bruteOracle zeroCostInst = .ok none ∧
    solve_mfbp subsetEncoder bruteOracle zeroCostInst = .error .typeError := by
  have h := c10_none_return_typeerror subsetEncoder bruteOracle zeroCostInst
  have h1 := h.1 _ _ rfl rfl rfl
  exact ⟨h1, h.2 h1⟩

/-- C4.  After each call into the pseudo-Boolean encoder — in
`create_target_flow_constraint` and in `create_objective_constraint` — the
variable pool's high-water mark `next_aux_var` equals
`max(value before the call, biggest reported auxiliary variable + 1)`.
The hypothesis `before ≤ reported + 1` is the encoder's contract
(pblib's `AuxVarManager`, initialised at `before`, hands out fresh
variables from `before` upward and reports `before - 1` when none are
used), under which the code's unconditional `reported + 1` assignment
coincides with the claimed `max` and never moves the mark backwards. -/
theorem c4_aux_var_resync (enc : PBEnc) (inst : Instance) (st : SolverSt) :
    (∀ lits st',
      pbLits st.mc_vars inst.capacities inst.links = some lits →
      create_target_flow_constraint enc inst st = some st' →
      st.next_aux_var ≤ (enc lits inst.target_flow st.next_aux_var).2 + 1 →
      st'.next_aux_var =
        max st.next_aux_var ((enc lits inst.target_flow st.next_aux_var).2 + 1)) ∧
    (∀ budget lits st',
      pbLits st.block_vars inst.blocker_costs inst.links = some lits →
      create_objective_constraint enc inst budget st = some st' →
      st.next_aux_var ≤ (enc lits budget st.next_aux_var).2 + 1 →
      st'.next_aux_var = max st.next_aux_var ((enc lits budget st.next_aux_var).2 + 1)) := by
  constructor
  · intro lits st' hlits hc hle
    unfold create_target_flow_constraint at hc
    rw [hlits] at hc
    simp only [Option.some.injEq] at hc
    rw [← hc]
    dsimp only
    omega
  · intro budget lits st' hlits hc hle
    unfold create_objective_constraint at hc
    rw [hlits] at hc
    simp only [Option.some.injEq] at hc
    rw [← hc]
    dsimp only
    omega

/-- C4 witness: on the single-bottleneck instance the target-flow call
enters with `next_aux_var = 6`, the encoder reports `5`, and the mark is
re-synchronized to `max 6 (5 + 1) = 6`. -/
theorem c4_aux_var_resync_witness :
    6 ≤ (subsetEncoder [(2, 10)] 0 6).2 + 1 ∧
    singleLinkTargetSt.next_aux_var = max 6 ((subsetEncoder [(2, 10)] 0 6).2 + 1) :=
  ⟨by decide,
   (c4_aux_var_resync subsetEncoder singleLinkInst singleLinkFixedSt).1 [(2, 10)]
     singleLinkTargetSt rfl rfl (by decide)⟩

/-- Helper: lookup in the empty dictionary. -/
theorem dlookup_nil {K V : Type} [DecidableEq K] (k : K) :
    dlookup k ([] : List (K × V)) = none := rfl

/-- Helper: lookup in a cons cell. -/
theorem dlookup_cons {K V : Type} [DecidableEq K] (k a : K) (b : V) (d : List (K × V)) :
    dlookup k ((a, b) :: d) = if a = k then some b else dlookup k d := by
  by_cases h : a = k <;> simp [dlookup, List.find?, h]

/-- Helper: looking up the key just inserted. -/
theorem dlookup_dinsert_self {K V : Type} [DecidableEq K] (k : K) (v : V)
    (d : List (K × V)) : dlookup k (dinsert k v d) = some v := by
  induction d with
  | nil => simp [dinsert, dlookup_cons]
  | cons p rest ih =>
    obtain ⟨a, b⟩ := p
    by_cases hk : a = k
    · simp [dinsert, hk, dlookup_cons]
    · simp [dinsert, hk, dlookup_cons, ih]

/-- Helper: inserting one key leaves the other keys' bindings unchanged. -/
theorem dlookup_dinsert_ne {K V : Type} [DecidableEq K] (k k' : K) (v : V)
    (d : List (K × V)) (hne : k ≠ k') :
    dlookup k (dinsert k' v d) = dlookup k d := by
  induction d with
  | nil => simp [dinsert, dlookup_cons, dlookup_nil, Ne.symm hne]
  | cons p rest ih =>
    obtain ⟨a, b⟩ := p
    by_cases hk : a = k'
    · subst hk
      simp [dinsert, dlookup_cons, Ne.symm hne]
    · by_cases hk2 : a = k
      · subst hk2
        simp [dinsert, hk, dlookup_cons]
      · simp [dinsert, hk, hk2, dlookup_cons, ih]

/-- Helper: a binding after an insertion is the inserted one or an old one. -/
theorem dlookup_dinsert_cases {K V : Type} [DecidableEq K] {k k' : K} {v w : V}
    {d : List (K × V)} (h : dlookup k (dinsert k' v d) = some w) :
    (k = k' ∧ w = v) ∨ dlookup k d = some w := by
  by_cases hk : k = k'
  · subst hk
    rw [dlookup_dinsert_self] at h
    exact Or.inl ⟨rfl, (Option.some.inj h).symm⟩
  · rw [dlookup_dinsert_ne k k' v d hk] at h
    exact Or.inr h

/-- Helper: a satisfied formula satisfies each member clause. -/
theorem cnfSat_mem (m : Nat) (f : List (List Int)) (c : List Int)
    (hf : cnfSat m f = true) (hc : c ∈ f) : clauseSat m c = true := by
  unfold cnfSat at hf
  rw [List.all_eq_true] at hf
  exact hf c hc

/-- Helper: a positive literal built from a variable is the variable's truth. -/
theorem litSat_pos (m v : Nat) : litSat m (v : Int) = varTrue m v := by
  simp [litSat, varTrue]

/-- Helper: a negative literal built from a variable `v ≥ 1` is the
negation of the variable's truth. -/
theorem litSat_neg (m v : Nat) (hv : 1 ≤ v) : litSat m (-(v : Int)) = ! varTrue m v := by
  unfold litSat varTrue
  have hneg : ¬ ((0 : Int) ≤ -(v : Int)) := by omega
  simp [hneg]

/-- Helper: the block-variable loop touches only the counter and
`block_vars`. -/
theorem blockVarsLoop_fields (links : List (Nat × Nat)) :
    ∀ st : SolverSt,
      (blockVarsLoop links st).cnf = st.cnf ∧
      (blockVarsLoop links st).mc_vars = st.mc_vars ∧
      (blockVarsLoop links st).source_vars = st.source_vars ∧
      (blockVarsLoop links st).duality_vars = st.duality_vars := by
  induction links with
  | nil => intro st; simp [blockVarsLoop]
  | cons l rest ih =>
    intro st
    simpa [blockVarsLoop] using
      ih { st with next_aux_var := st.next_aux_var + 1,
                   block_vars := dinsert l st.next_aux_var st.block_vars }

/-- Helper: the block-variable loop never decreases the counter. -/
theorem blockVarsLoop_next (links : List (Nat × Nat)) :
    ∀ st : SolverSt, st.next_aux_var ≤ (blockVarsLoop links st).next_aux_var := by
  induction links with
  | nil => intro st; exact le_refl _
  | cons l rest ih =>
    intro st
    exact le_trans (Nat.le_succ _)
      (ih { st with next_aux_var := st.next_aux_var + 1,
                    block_vars := dinsert l st.next_aux_var st.block_vars })

/-- Helper: the mc-variable loop touches only the counter and `mc_vars`. -/
theorem mcVarsLoop_fields (links : List (Nat × Nat)) :
    ∀ st : SolverSt,
      (mcVarsLoop links st).cnf = st.cnf ∧
      (mcVarsLoop links st).block_vars = st.block_vars ∧
      (mcVarsLoop links st).source_vars = st.source_vars ∧
      (mcVarsLoop links st).duality_vars = st.duality_vars := by
  induction links with
  | nil => intro st; simp [mcVarsLoop]
  | cons l rest ih =>
    intro st
    simpa [mcVarsLoop] using
      ih { st with next_aux_var := st.next_aux_var + 1,
                   mc_vars := dinsert l st.next_aux_var st.mc_vars }

/-- Helper: the mc-variable loop never decreases the counter. -/
theorem mcVarsLoop_next (links : List (Nat × Nat)) :
    ∀ st : SolverSt, st.next_aux_var ≤ (mcVarsLoop links st).next_aux_var := by
  induction links with
  | nil => intro st; exact le_refl _
  | cons l rest ih =>
    intro st
    exact le_trans (Nat.le_succ _)
      (ih { st with next_aux_var := st.next_aux_var + 1,
                    mc_vars := dinsert l st.next_aux_var st.mc_vars })

/-- Helper: the side-variable loop touches only the counter and
`source_vars`. -/
theorem sourceVarsLoop_fields (nodes : List Nat) :
    ∀ st : SolverSt,
      (sourceVarsLoop nodes st).cnf = st.cnf ∧
      (sourceVarsLoop nodes st).block_vars = st.block_vars ∧
      (sourceVarsLoop nodes st).mc_vars = st.mc_vars ∧
      (sourceVarsLoop nodes st).duality_vars = st.duality_vars := by
  induction nodes with
  | nil => intro st; simp [sourceVarsLoop]
  | cons n rest ih =>
    intro st
    simpa [sourceVarsLoop] using
      ih { st with next_aux_var := st.next_aux_var + 1,
                   source_vars := dinsert n st.next_aux_var st.source_vars }

/-- Helper: the side-variable loop never decreases the counter. -/
theorem sourceVarsLoop_next (nodes : List Nat) :
    ∀ st : SolverSt, st.next_aux_var ≤ (sourceVarsLoop nodes st).next_aux_var := by
  induction nodes with
  | nil => intro st; exact le_refl _
  | cons n rest ih =>
    intro st
    exact le_trans (Nat.le_succ _)
      (ih { st with next_aux_var := st.next_aux_var + 1,
                    source_vars := dinsert n st.next_aux_var st.source_vars })

/-- Helper: every `side` value stored by the side-variable loop is either at
least the entry counter or was present before the loop ran. -/
theorem sourceVarsLoop_values (nodes : List Nat) :
    ∀ (st : SolverSt) (k v : Nat),
      dlookup k (sourceVarsLoop nodes st).source_vars = some v →
      st.next_aux_var ≤ v ∨ dlookup k st.source_vars = some v := by
  induction nodes with
  | nil => intro st k v h; exact Or.inr h
  | cons n rest ih =>
    intro st k v h
    rcases ih _ k v h with hge | hold
    · exact Or.inl (le_trans (Nat.le_succ _) hge)
    · rcases dlookup_dinsert_cases hold with ⟨hk, hveq⟩ | holder
      · exact Or.inl (le_of_eq hveq.symm)
      · exact Or.inr holder


/-- Helper: the duality loop preserves the other three dictionaries,
only ever appends to the CNF, and keeps every existing dual binding. -/
theorem dualLoop_spec (links : List (Nat × Nat)) :
    ∀ st st' : SolverSt, dualLoop links st = some st' →
      st'.source_vars = st.source_vars ∧
      st'.block_vars = st.block_vars ∧
      st'.mc_vars = st.mc_vars ∧
      (∀ c, c ∈ st.cnf → c ∈ st'.cnf) ∧
      (∀ t v, dlookup t st.duality_vars = some v →
        dlookup t st'.duality_vars = some v) := by
  induction links with
  | nil =>
    intro st st' heq
    cases heq
    exact ⟨rfl, rfl, rfl, fun c hc => hc, fun t v hv => hv⟩
  | cons l rest ih =>
    obtain ⟨hd, t⟩ := l
    intro st st' heq
    simp only [dualLoop] at heq
    by_cases hmem : dmem t st.duality_vars
    · rw [if_pos hmem] at heq
      exact ih st st' heq
    · rw [if_neg hmem] at heq
      rcases hsv : dlookup t st.source_vars with _ | sv <;> rw [hsv] at heq
      · cases heq
      · have h := ih _ st' heq
        have hnone : dlookup t st.duality_vars = none := by
          unfold dmem at hmem
          exact Option.not_isSome_iff_eq_none.mp hmem
        refine ⟨h.1, h.2.1, h.2.2.1, ?_, ?_⟩
        · intro c hc
          exact h.2.2.2.1 c (by simp [hc])
        · intro t' v hv
          have hne : t' ≠ t := by
            intro hcon
            rw [hcon, hnone] at hv
            cases hv
          refine h.2.2.2.2 t' v ?_
          simpa [dlookup_dinsert_ne t' t _ _ hne] using hv

/-- Helper: the duality loop establishes `DualInv` and a dual binding for
every tail in its link list. -/
theorem dualLoop_inv (links : List (Nat × Nat)) :
    ∀ st st' : SolverSt, dualLoop links st = some st' → DualInv st →
      DualInv st' ∧ ∀ l ∈ links, ∃ dv, dlookup l.2 st'.duality_vars = some dv := by
  induction links with
  | nil =>
    intro st st' heq hinv
    cases heq
    exact ⟨hinv, by simp⟩
  | cons l rest ih =>
    obtain ⟨hd, t⟩ := l
    intro st st' heq hinv
    simp only [dualLoop] at heq
    by_cases hmem : dmem t st.duality_vars
    · rw [if_pos hmem] at heq
      obtain ⟨hinv', hrest⟩ := ih st st' heq hinv
      refine ⟨hinv', ?_⟩
      intro l hl
      rcases List.mem_cons.mp hl with hl | hl
      · subst hl
        obtain ⟨v, hv⟩ := Option.isSome_iff_exists.mp hmem
        exact ⟨v, (dualLoop_spec rest st st' heq).2.2.2.2 t v hv⟩
      · exact hrest l hl
    · rw [if_neg hmem] at heq
      rcases hsv : dlookup t st.source_vars with _ | sv <;> rw [hsv] at heq
      · cases heq
      · have hinvIns : DualInv
            { st with next_aux_var := st.next_aux_var + 1,
                      duality_vars := dinsert t st.next_aux_var st.duality_vars,
                      cnf := st.cnf ++
                        [[(sv : Int), (st.next_aux_var : Int)],
                         [-(sv : Int), -(st.next_aux_var : Int)]] } := by
          intro t' dv' hl
          rcases dlookup_dinsert_cases hl with ⟨hk, hveq⟩ | hold
          · subst hk
            exact ⟨sv, hsv, by simp [hveq], by simp [hveq]⟩
          · obtain ⟨sv', hsv', hc1, hc2⟩ := hinv t' dv' hold
            exact ⟨sv', hsv', by simp [hc1], by simp [hc2]⟩
        obtain ⟨hinv', hrest⟩ := ih _ st' heq hinvIns
        refine ⟨hinv', ?_⟩
        intro l hl
        rcases List.mem_cons.mp hl with hl | hl
        · subst hl
          refine ⟨st.next_aux_var, (dualLoop_spec rest _ st' heq).2.2.2.2 t _ ?_⟩
          exact dlookup_dinsert_self t st.next_aux_var st.duality_vars
        · exact hrest l hl

/-- Helper: the link-clause loop preserves all dictionaries, only appends
to the CNF, and puts the 4-literal clause of every listed link — built from
that link's stored variables — into the final CNF. -/
theorem linkClauseLoop_spec (links : List (Nat × Nat)) :
    ∀ st st' : SolverSt, linkClauseLoop links st = some st' →
      (st'.block_vars = st.block_vars ∧ st'.mc_vars = st.mc_vars ∧
       st'.source_vars = st.source_vars ∧ st'.duality_vars = st.duality_vars) ∧
      (∀ c, c ∈ st.cnf → c ∈ st'.cnf) ∧
      (∀ l ∈ links, ∃ mc bl sh dt,
        dlookup l st.mc_vars = some mc ∧ dlookup l st.block_vars = some bl ∧
        dlookup l.1 st.source_vars = some sh ∧ dlookup l.2 st.duality_vars = some dt ∧
        [(mc : Int), (bl : Int), (sh : Int), (dt : Int)] ∈ st'.cnf) := by
  induction links with
  | nil =>
    intro st st' heq
    cases heq
    exact ⟨⟨rfl, rfl, rfl, rfl⟩, fun c hc => hc, by simp⟩
  | cons l rest ih =>
    obtain ⟨hd, t⟩ := l
    intro st st' heq
    simp only [linkClauseLoop] at heq
    rcases hmc : dlookup (hd, t) st.mc_vars with _ | mc <;> rw [hmc] at heq
    · cases heq
    rcases hbl : dlookup (hd, t) st.block_vars with _ | bl <;> rw [hbl] at heq
    · cases heq
    rcases hsh : dlookup hd st.source_vars with _ | sh <;> rw [hsh] at heq
    · cases heq
    rcases hdt : dlookup t st.duality_vars with _ | dt <;> rw [hdt] at heq
    · cases heq
    have h := ih _ st' heq
    refine ⟨h.1, ?_, ?_⟩
    · intro c hc
      exact h.2.1 c (by simp [hc])
    · intro l hl
      rcases List.mem_cons.mp hl with hl | hl
      · subst hl
        exact ⟨mc, bl, sh, dt, hmc, hbl, hsh, hdt, h.2.1 _ (by simp)⟩
      · exact h.2.2 l hl

/-- Helper: every dual value stored by the duality loop is either at least
the entry counter or was present before the loop ran. -/
theorem dualLoop_values (links : List (Nat × Nat)) :
    ∀ (st st' : SolverSt), dualLoop links st = some st' →
      ∀ k v, dlookup k st'.duality_vars = some v →
        st.next_aux_var ≤ v ∨ dlookup k st.duality_vars = some v := by
  induction links with
  | nil =>
    intro st st' heq k v hv
    cases heq
    exact Or.inr hv
  | cons l rest ih =>
    obtain ⟨hd, t⟩ := l
    intro st st' heq k v hv
    simp only [dualLoop] at heq
    by_cases hmem : dmem t st.duality_vars
    · rw [if_pos hmem] at heq
      exact ih st st' heq k v hv
    · rw [if_neg hmem] at heq
      rcases hsv : dlookup t st.source_vars with _ | sv <;> rw [hsv] at heq
      · cases heq
      · rcases ih _ st' heq k v hv with hge | hold
        · exact Or.inl (le_trans (Nat.le_succ _) hge)
        · rcases dlookup_dinsert_cases hold with ⟨hk, hveq⟩ | holder
          · exact Or.inl (le_of_eq hveq.symm)
          · exact Or.inr holder

/-- Helper: the state after `create_variables` on the fresh solver state:
no dual variables, no clauses, counter at least 1, and every stored `side`
variable at least 1. -/
theorem create_variables_init (inst : Instance) :
    (create_variables inst initSt).duality_vars = [] ∧
    (create_variables inst initSt).cnf = [] ∧
    1 ≤ (create_variables inst initSt).next_aux_var ∧
    (∀ k v, dlookup k (create_variables inst initSt).source_vars = some v → 1 ≤ v) := by
  have f1 := blockVarsLoop_fields inst.links initSt
  have f2 := mcVarsLoop_fields inst.links (blockVarsLoop inst.links initSt)
  have f3 := sourceVarsLoop_fields inst.nodes
    (mcVarsLoop inst.links (blockVarsLoop inst.links initSt))
  have n1 := blockVarsLoop_next inst.links initSt
  have n2 := mcVarsLoop_next inst.links (blockVarsLoop inst.links initSt)
  have n3 := sourceVarsLoop_next inst.nodes
    (mcVarsLoop inst.links (blockVarsLoop inst.links initSt))
  refine ⟨?_, ?_, ?_, ?_⟩
  · unfold create_variables
    rw [f3.2.2.2, f2.2.2.2, f1.2.2.2]
    rfl
  · unfold create_variables
    rw [f3.1, f2.1, f1.1]
    rfl
  · unfold create_variables
    have hinit : initSt.next_aux_var = 1 := rfl
    omega
  · intro k v hv
    rcases sourceVarsLoop_values inst.nodes
        (mcVarsLoop inst.links (blockVarsLoop inst.links initSt)) k v hv with hge | hold
    · have hinit : initSt.next_aux_var = 1 := rfl
      omega
    · rw [f2.2.2.1, f1.2.2.1] at hold
      rw [show initSt.source_vars = [] from rfl, dlookup_nil] at hold
      cases hold
/-- Helper: master characterization of the fixed cut-encoding clauses.
After `create_flow_conservation_constraints`, the CNF contains the unit
clauses for the source and destination `side` variables, the CNF satisfies
`DualInv`, every link tail has a dual binding, and every link's 4-literal
clause — built from its stored variables — is present; the block, mc and
side dictionaries are unchanged. -/
theorem fcc_spec (inst : Instance) (st st2 : SolverSt)
    (heq : create_flow_conservation_constraints inst st = some st2)
    (hinv : DualInv st) :
    ∃ svS svD,
      dlookup inst.source st.source_vars = some svS ∧
      dlookup inst.destination st.source_vars = some svD ∧
      st2.source_vars = st.source_vars ∧
      st2.block_vars = st.block_vars ∧
      st2.mc_vars = st.mc_vars ∧
      [(svS : Int)] ∈ st2.cnf ∧
      [-(svD : Int)] ∈ st2.cnf ∧
      DualInv st2 ∧
      (∀ k v, dlookup k st2.duality_vars = some v →
        st.next_aux_var ≤ v ∨ dlookup k st.duality_vars = some v) ∧
      (∀ l ∈ inst.links, ∃ dv, dlookup l.2 st2.duality_vars = some dv) ∧
      (∀ l ∈ inst.links, ∃ mc bl sh dt,
        dlookup l st2.mc_vars = some mc ∧ dlookup l st2.block_vars = some bl ∧
        dlookup l.1 st2.source_vars = some sh ∧ dlookup l.2 st2.duality_vars = some dt ∧
        [(mc : Int), (bl : Int), (sh : Int), (dt : Int)] ∈ st2.cnf) := by
  unfold create_flow_conservation_constraints at heq
  split at heq
  next svS svD hS hD =>
    rcases hdl : dualLoop inst.links
        { st with cnf := st.cnf ++ [[(svS : Int)], [-(svD : Int)]] } with _ | stB
    · rw [hdl] at heq
      cases heq
    rw [hdl] at heq
    simp only [Option.some_bind] at heq
    have hinvA : DualInv { st with cnf := st.cnf ++ [[(svS : Int)], [-(svD : Int)]] } := by
      intro t dv hl
      obtain ⟨sv, hsv, hc1, hc2⟩ := hinv t dv hl
      exact ⟨sv, hsv, by simp [hc1], by simp [hc2]⟩
    obtain ⟨hinvB, hdualsB⟩ := dualLoop_inv inst.links _ stB hdl hinvA
    have hspecB := dualLoop_spec inst.links _ stB hdl
    obtain ⟨hfieldsC, hmonoC, hclausesC⟩ := linkClauseLoop_spec inst.links stB st2 heq
    have hsrcEq : st2.source_vars = st.source_vars := by
      rw [hfieldsC.2.2.1, hspecB.1]
    refine ⟨svS, svD, hS, hD, hsrcEq, by rw [hfieldsC.1, hspecB.2.1],
      by rw [hfieldsC.2.1, hspecB.2.2.1], ?_, ?_, ?_, ?_, ?_, ?_⟩
    · exact hmonoC _ (hspecB.2.2.2.1 _ (by simp))
    · exact hmonoC _ (hspecB.2.2.2.1 _ (by simp))
    · intro t dv hl
      rw [hfieldsC.2.2.2] at hl
      obtain ⟨sv, hsv, hc1, hc2⟩ := hinvB t dv hl
      rw [hspecB.1] at hsv
      exact ⟨sv, by rw [hsrcEq]; exact hsv, hmonoC _ hc1, hmonoC _ hc2⟩
    · intro k v hv
      rw [hfieldsC.2.2.2] at hv
      exact dualLoop_values inst.links _ stB hdl k v hv
    · intro l hl
      obtain ⟨dv, hdv⟩ := hdualsB l hl
      exact ⟨dv, by rw [hfieldsC.2.2.2]; exact hdv⟩
    · intro l hl
      obtain ⟨mc, bl, sh, dt, hmc, hbl, hsh, hdt, hcl⟩ := hclausesC l hl
      refine ⟨mc, bl, sh, dt, ?_, ?_, ?_, ?_, hcl⟩
      · rw [hfieldsC.2.1]; exact hmc
      · rw [hfieldsC.1]; exact hbl
      · rw [hfieldsC.2.2.1]; exact hsh
      · rw [hfieldsC.2.2.2]; exact hdt
  next hno =>
    cases heq

/-- C7.  In every assignment satisfying the fixed clauses built by
`create_flow_conservation_constraints` (on the variable state produced by
`create_variables`): the source's `side` variable is true, the
destination's is false, and every node occurring as the tail of a link has
a single `dual` variable — shared by all links with that tail, since the
dictionary holds one binding per tail — with exactly one of `side(tail)`,
`dual(tail)` true. -/
theorem c7_partition_constraints (inst : Instance) (st2 : SolverSt) (m : Nat)
    (heq : create_flow_conservation_constraints inst
      (create_variables inst initSt) = some st2)
    (hm : cnfSat m st2.cnf = true) :
    (∃ svS, dlookup inst.source st2.source_vars = some svS ∧ varTrue m svS = true) ∧
    (∃ svD, dlookup inst.destination st2.source_vars = some svD ∧ varTrue m svD = false) ∧
    (∀ l ∈ inst.links, ∃ sv dv,
      dlookup l.2 st2.source_vars = some sv ∧
      dlookup l.2 st2.duality_vars = some dv ∧
      varTrue m sv ≠ varTrue m dv) ∧
    (∀ l l', l ∈ inst.links → l' ∈ inst.links → l.2 = l'.2 →
      dlookup l.2 st2.duality_vars = dlookup l'.2 st2.duality_vars) := by
  obtain ⟨hdual0, hcnf0, hnext1, hsrcpos⟩ := create_variables_init inst
  have hinv1 : DualInv (create_variables inst initSt) := by
    intro t dv hl
    rw [hdual0, dlookup_nil] at hl
    cases hl
  obtain ⟨svS, svD, hS, hD, hsrcEq, hblkEq, hmcEq, hcS, hcD, hinv2, hvals, hduals, hclauses⟩ :=
    fcc_spec inst _ st2 heq hinv1
  have hdvpos : ∀ k v, dlookup k st2.duality_vars = some v → 1 ≤ v := by
    intro k v hv
    rcases hvals k v hv with hge | hold
    · omega
    · rw [hdual0, dlookup_nil] at hold
      cases hold
  refine ⟨⟨svS, by rw [hsrcEq]; exact hS, ?_⟩,
          ⟨svD, by rw [hsrcEq]; exact hD, ?_⟩, ?_, ?_⟩
  · have he := cnfSat_mem m st2.cnf _ hm hcS
    simpa [clauseSat, litSat_pos] using he
  · have hDpos : 1 ≤ svD := hsrcpos _ _ hD
    have he := cnfSat_mem m st2.cnf _ hm hcD
    simpa [clauseSat, litSat_neg m svD hDpos] using he
  · intro l hl
    obtain ⟨dv, hdv⟩ := hduals l hl
    obtain ⟨sv, hsv, hc1, hc2⟩ := hinv2 l.2 dv hdv
    have hsvpos : 1 ≤ sv := by
      refine hsrcpos l.2 sv ?_
      rw [← hsrcEq]
      exact hsv
    have hdvp : 1 ≤ dv := hdvpos l.2 dv hdv
    have e1 := cnfSat_mem m st2.cnf _ hm hc1
    have e2 := cnfSat_mem m st2.cnf _ hm hc2
    simp only [clauseSat, List.any_cons, List.any_nil, litSat_pos, Bool.or_false,
      Bool.or_eq_true] at e1
    simp only [clauseSat, List.any_cons, List.any_nil, litSat_neg m sv hsvpos,
      litSat_neg m dv hdvp, Bool.or_false, Bool.or_eq_true, Bool.not_eq_true'] at e2
    refine ⟨sv, dv, hsv, hdv, ?_⟩
    cases h1 : varTrue m sv <;> cases h2 : varTrue m dv <;> simp_all
  · intro l l' hl hl' hteq
    rw [hteq]

/-- C7 witness: the theorem instantiated on the single-bottleneck instance
with satisfying assignment 20 (side(1) and dual(2) true). -/
theorem c7_partition_constraints_witness :
    (∃ svS, dlookup singleLinkInst.source singleLinkFixedSt.source_vars = some svS ∧
      varTrue 20 svS = true) ∧
    (∃ svD, dlookup singleLinkInst.destination singleLinkFixedSt.source_vars = some svD ∧
      varTrue 20 svD = false) ∧
    (∀ l ∈ singleLinkInst.links, ∃ sv dv,
      dlookup l.2 singleLinkFixedSt.source_vars = some sv ∧
      dlookup l.2 singleLinkFixedSt.duality_vars = some dv ∧
      varTrue 20 sv ≠ varTrue 20 dv) ∧
    (∀ l l', l ∈ singleLinkInst.links → l' ∈ singleLinkInst.links → l.2 = l'.2 →
      dlookup l.2 singleLinkFixedSt.duality_vars =
        dlookup l'.2 singleLinkFixedSt.duality_vars) :=
  c7_partition_constraints singleLinkInst singleLinkFixedSt 20 rfl (by decide)

/-- C2 amended.  What the fixed clauses actually guarantee for a link with
`block` and `mc` both false is the mirror image of the claim: since the
4-literal clause uses the positive literals `side(head)` and `dual(tail)`,
such a link can never cross from the sink side to the source side — that
is, `side(head)` is true or `side(tail)` is false; the claimed direction
(never source-side head with sink-side tail) is exactly the satisfiable
combination. -/
theorem c2_amended_no_backward_crossing (inst : Instance) (st2 : SolverSt)
    (m a b bl mc sh sv : Nat)
    (heq : create_flow_conservation_constraints inst
      (create_variables inst initSt) = some st2)
    (hl : (a, b) ∈ inst.links)
    (hm : cnfSat m st2.cnf = true)
    (hbl : dlookup (a, b) st2.block_vars = some bl)
    (hmc : dlookup (a, b) st2.mc_vars = some mc)
    (hsh : dlookup a st2.source_vars = some sh)
    (hsv : dlookup b st2.source_vars = some sv)
    (hblF : varTrue m bl = false)
    (hmcF : varTrue m mc = false) :
    varTrue m sh = true ∨ varTrue m sv = false := by
  obtain ⟨hdual0, hcnf0, hnext1, hsrcpos⟩ := create_variables_init inst
  have hinv1 : DualInv (create_variables inst initSt) := by
    intro t dv hlk
    rw [hdual0, dlookup_nil] at hlk
    cases hlk
  obtain ⟨svS, svD, hS, hD, hsrcEq, hblkEq, hmcEq, hcS, hcD, hinv2, hvals, hduals, hclauses⟩ :=
    fcc_spec inst _ st2 heq hinv1
  obtain ⟨mc', bl', sh', dt', hmc', hbl', hsh', hdt', hcl⟩ := hclauses (a, b) hl
  have hmceq : mc' = mc := Option.some.inj (hmc'.symm.trans hmc)
  have hbleq : bl' = bl := Option.some.inj (hbl'.symm.trans hbl)
  have hsheq : sh' = sh := Option.some.inj (hsh'.symm.trans hsh)
  obtain ⟨sv'', hsv'', hc1, hc2⟩ := hinv2 b dt' hdt'
  have hsveq : sv'' = sv := Option.some.inj (hsv''.symm.trans hsv)
  rw [hmceq, hbleq, hsheq] at hcl
  rw [hsveq] at hc1 hc2
  have hsvpos : 1 ≤ sv := by
    refine hsrcpos b sv ?_
    rw [← hsrcEq]
    exact hsv
  have hdtpos : 1 ≤ dt' := by
    rcases hvals b dt' hdt' with hge | hold
    · omega
    · rw [hdual0, dlookup_nil] at hold
      cases hold
  have e4 := cnfSat_mem m st2.cnf _ hm hcl
  have e2 := cnfSat_mem m st2.cnf _ hm hc2
  simp only [clauseSat, List.any_cons, List.any_nil, litSat_pos, Bool.or_false,
    Bool.or_eq_true] at e4
  simp only [clauseSat, List.any_cons, List.any_nil, litSat_neg m sv hsvpos,
    litSat_neg m dt' hdtpos, Bool.or_false, Bool.or_eq_true, Bool.not_eq_true'] at e2
  rcases e4 with hT | hT | hT | hT
  · rw [hmcF] at hT
    cases hT
  · rw [hblF] at hT
    cases hT
  · exact Or.inl hT
  · rcases e2 with hF | hF
    · exact Or.inr hF
    · rw [hT] at hF
      cases hF

/-- C2 amended witness: the theorem instantiated on the single-bottleneck
instance with assignment 20, where the conclusion's first disjunct holds
(side of the head, node 1, is true). -/
theorem c2_amended_no_backward_crossing_witness :
    varTrue 20 3 = true ∨ varTrue 20 4 = false :=
  c2_amended_no_backward_crossing singleLinkInst singleLinkFixedSt 20 1 2 1 2 3 4
    rfl (by decide) (by decide) rfl rfl rfl rfl (by decide) (by decide)

/-- Helper: if every link has a block variable and a blocker cost, the
weighted-literal list is built successfully. -/
theorem pbLits_isSome (bv costs : List ((Nat × Nat) × Nat)) :
    ∀ links : List (Nat × Nat),
      (∀ l ∈ links, (dlookup l bv).isSome ∧ (dlookup l costs).isSome) →
      ∃ lits, pbLits bv costs links = some lits := by
  intro links
  induction links with
  | nil => intro _; exact ⟨[], rfl⟩
  | cons l rest ih =>
    intro hok
    obtain ⟨v, hv⟩ := Option.isSome_iff_exists.mp (hok l (by simp)).1
    obtain ⟨w, hw⟩ := Option.isSome_iff_exists.mp (hok l (by simp)).2
    obtain ⟨tl, htl⟩ := ih (fun l' hl' => hok l' (by simp [hl']))
    exact ⟨(v, w) :: tl, by simp [pbLits, hv, hw, htl]⟩

/-- Helper: shape of a successful `create_objective_constraint` call: the
encoder clauses for the built literals are appended to the CNF and the
dictionaries are untouched. -/
theorem objective_shape (enc : PBEnc) (inst : Instance) (budget : Nat)
    (st st' : SolverSt)
    (h : create_objective_constraint enc inst budget st = some st') :
    ∃ lits, pbLits st.block_vars inst.blocker_costs inst.links = some lits ∧
      st'.cnf = st.cnf ++ (enc lits budget st.next_aux_var).1 ∧
      st'.block_vars = st.block_vars := by
  unfold create_objective_constraint at h
  rcases hlits : pbLits st.block_vars inst.blocker_costs inst.links with _ | lits
    <;> rw [hlits] at h
  · cases h
  · simp only [Option.some.injEq] at h
    exact ⟨lits, rfl, by rw [← h], by rw [← h]⟩

/-- Helper: shape of a successful binary-search step: `block_vars`
survives, exactly one trace entry is appended — holding the submitted
formula, the tried budget `c_mid = (c_min + c_max) / 2` and the counter at
encoding time — and the interval is narrowed to `[c_min, c_mid]` (the
query was satisfiable) or to `[c_mid + 1, c_max]` (it was not). -/
theorem bsStep_shape (enc : PBEnc) (oracle : SatOracle) (inst : Instance)
    (n : Nat) (ls ls' : LoopSt)
    (hstep : bsStep enc oracle inst n ls = .ok ls') :
    ls'.sst.block_vars = ls.sst.block_vars ∧
    ls'.trace.length = ls.trace.length + 1 ∧
    ((ls'.c_min = ls.c_min ∧ ls'.c_max = (ls.c_min + ls.c_max) / 2) ∨
     (ls'.c_min = (ls.c_min + ls.c_max) / 2 + 1 ∧ ls'.c_max = ls.c_max)) := by
  unfold bsStep at hstep
  dsimp only at hstep
  split at hstep
  · cases hstep
  next st' hobj =>
    obtain ⟨lits, hlits, hcnf, hbv⟩ := objective_shape enc inst _ _ st' hobj
    split at hstep <;>
      (injection hstep with hstep; rw [← hstep]; dsimp only) <;>
      simp [hbv]

/-- Helper: a binary-search step succeeds whenever every link has a block
variable and a blocker cost. -/
theorem bsStep_progress (enc : PBEnc) (oracle : SatOracle) (inst : Instance)
    (n : Nat) (ls : LoopSt)
    (hok : ∀ l ∈ inst.links,
      (dlookup l ls.sst.block_vars).isSome ∧ (dlookup l inst.blocker_costs).isSome) :
    ∃ ls', bsStep enc oracle inst n ls = .ok ls' := by
  obtain ⟨lits, hlits⟩ := pbLits_isSome ls.sst.block_vars inst.blocker_costs inst.links hok
  unfold bsStep
  dsimp only
  unfold create_objective_constraint
  rw [show ({ ls.sst with cnf := ls.sst.cnf.take n } : SolverSt).block_vars
      = ls.sst.block_vars from rfl, hlits]
  dsimp only
  rcases oracle ((({ ls.sst with cnf := ls.sst.cnf.take n } : SolverSt)).cnf ++
      (enc lits ((ls.c_min + ls.c_max) / 2)
        ({ ls.sst with cnf := ls.sst.cnf.take n } : SolverSt).next_aux_var).1) with _ | m
  · exact ⟨_, rfl⟩
  · exact ⟨_, rfl⟩

/-- Helper: one halving step of the query-count bound. -/
theorem log2_step_bound (s s1 : Nat) (hs : 1 ≤ s) (hhalf : s1 ≤ s / 2) :
    1 + (if s1 = 0 then 0 else Nat.log2 s1 + 1) ≤
      (if s = 0 then 0 else Nat.log2 s + 1) := by
  have hsne : ¬ s = 0 := by omega
  rw [if_neg hsne]
  by_cases h1 : s1 = 0
  · simp [h1]
  · rw [if_neg h1]
    have hs2 : 2 ≤ s := by omega
    have hlog : Nat.log2 s = Nat.log2 (s / 2) + 1 := by
      rw [Nat.log2]
      simp [hs2]
    have hmono : Nat.log2 s1 ≤ Nat.log2 (s / 2) := by
      simp only [Nat.log2_eq_log_two]
      exact Nat.log_mono_right hhalf
    omega

/-- Helper: termination and query count of the binary-search loop: with
fuel exceeding the interval width, the loop ends with `c_min = c_max`
after at most `log2(width) + 1` oracle queries. -/
theorem bsLoop_term (enc : PBEnc) (oracle : SatOracle) (inst : Instance)
    (n : Nat) (bv : List ((Nat × Nat) × Nat))
    (hok : ∀ l ∈ inst.links,
      (dlookup l bv).isSome ∧ (dlookup l inst.blocker_costs).isSome) :
    ∀ (fuel : Nat) (ls : LoopSt),
      ls.sst.block_vars = bv →
      ls.c_max - ls.c_min < fuel →
      ls.c_min ≤ ls.c_max →
      ∃ ls', bsLoop enc oracle inst n fuel ls = .ok ls' ∧
        ls'.c_min = ls'.c_max ∧
        ls'.trace.length ≤ ls.trace.length +
          (if ls.c_max - ls.c_min = 0 then 0 else Nat.log2 (ls.c_max - ls.c_min) + 1) := by
  intro fuel
  induction fuel with
  | zero =>
    intro ls _ hfuel _
    omega
  | succ fuel ih =>
    intro ls hbv hfuel hle
    by_cases hlt : ls.c_min < ls.c_max
    · obtain ⟨ls1, hstep⟩ := bsStep_progress enc oracle inst n ls (hbv ▸ hok)
      obtain ⟨hbv1, htr1, hint⟩ := bsStep_shape enc oracle inst n ls ls1 hstep
      have hsize1 : ls1.c_max - ls1.c_min ≤ (ls.c_max - ls.c_min) / 2 := by
        rcases hint with ⟨h1, h2⟩ | ⟨h1, h2⟩ <;> omega
      have hle1 : ls1.c_min ≤ ls1.c_max := by
        rcases hint with ⟨h1, h2⟩ | ⟨h1, h2⟩ <;> omega
      obtain ⟨ls', hrun, hfin, hcount⟩ := ih ls1 (hbv1.trans hbv)
        (by omega) hle1
      refine ⟨ls', ?_, hfin, ?_⟩
      · simp [bsLoop, hlt, hstep, hrun, Except.bind]
      · have hb := log2_step_bound (ls.c_max - ls.c_min) (ls1.c_max - ls1.c_min)
          (by omega) hsize1
        omega
    · refine ⟨ls, by simp [bsLoop, hlt], by omega, by simp⟩

/-- C5.  The binary search terminates.  Part one: from any interval with
`c_min < c_max`, one step computes `c_mid = (c_min + c_max) / 2` and
narrows to `[c_min, c_mid]` or `[c_mid + 1, c_max]`, so the width at least
halves and strictly decreases.  Part two: started on `[0, Σ blocker_cost]`
as in `solve_with_binary_search`, the loop exits with `c_min = c_max`
after at most `log2(Σ blocker_cost) + 1` satisfiability queries (the trace
records one entry per query). -/
theorem c5_binary_search_terminates (enc : PBEnc) (oracle : SatOracle)
    (inst : Instance) (n : Nat) (st3 : SolverSt)
    (hok : ∀ l ∈ inst.links,
      (dlookup l st3.block_vars).isSome ∧ (dlookup l inst.blocker_costs).isSome) :
    (∀ ls ls' : LoopSt, ls.c_min < ls.c_max →
      bsStep enc oracle inst n ls = .ok ls' →
      ((ls'.c_min = ls.c_min ∧ ls'.c_max = (ls.c_min + ls.c_max) / 2) ∨
       (ls'.c_min = (ls.c_min + ls.c_max) / 2 + 1 ∧ ls'.c_max = ls.c_max)) ∧
      ls'.c_max - ls'.c_min ≤ (ls.c_max - ls.c_min) / 2 ∧
      ls'.c_max - ls'.c_min < ls.c_max - ls.c_min) ∧
    (∃ ls', bsLoop enc oracle inst n (dvaluesSum inst.blocker_costs + 1)
        { c_min := 0, c_max := dvaluesSum inst.blocker_costs, sst := st3,
          solution := none, trace := [] } = .ok ls' ∧
      ls'.c_min = ls'.c_max ∧
      ls'.trace.length ≤ Nat.log2 (dvaluesSum inst.blocker_costs) + 1) := by
  constructor
  · intro ls ls' hlt hstep
    obtain ⟨hbv, htr, hint⟩ := bsStep_shape enc oracle inst n ls ls' hstep
    refine ⟨hint, ?_, ?_⟩ <;> rcases hint with ⟨h1, h2⟩ | ⟨h1, h2⟩ <;> omega
  · obtain ⟨ls', hrun, hfin, hcount⟩ := bsLoop_term enc oracle inst n st3.block_vars hok
      (dvaluesSum inst.blocker_costs + 1)
      { c_min := 0, c_max := dvaluesSum inst.blocker_costs, sst := st3,
        solution := none, trace := [] } rfl (Nat.lt_succ_self _) (Nat.zero_le _)
    refine ⟨ls', hrun, hfin, ?_⟩
    dsimp only at hcount
    simp only [Nat.sub_zero, List.length_nil, Nat.zero_add] at hcount
    by_cases h0 : dvaluesSum inst.blocker_costs = 0
    · rw [if_pos h0] at hcount
      omega
    · rw [if_neg h0] at hcount
      omega

/-- C5 witness: the termination conjunct instantiated on the
single-bottleneck instance (interval `[0, 3]`). -/
theorem c5_binary_search_terminates_witness :
    ∃ ls', bsLoop subsetEncoder bruteOracle singleLinkInst 6
        (dvaluesSum singleLinkInst.blocker_costs + 1)
        { c_min := 0, c_max := dvaluesSum singleLinkInst.blocker_costs,
          sst := singleLinkTargetSt, solution := none, trace := [] } = .ok ls' ∧
      ls'.c_min = ls'.c_max ∧
      ls'.trace.length ≤ Nat.log2 (dvaluesSum singleLinkInst.blocker_costs) + 1 :=
  (c5_binary_search_terminates subsetEncoder bruteOracle singleLinkInst 6
    singleLinkTargetSt (by decide)).2

/-- Helper: trace invariant of the binary-search loop.  If the CNF's first
`fixedCnf.length` clauses are the fixed prefix and the block dictionary is
`bv`, then every trace entry the loop ever records carries a formula that
is exactly the fixed prefix followed by the encoder's budget clauses for
that entry's `c_mid`. -/
theorem bsLoop_trace_inv (enc : PBEnc) (oracle : SatOracle) (inst : Instance)
    (fixedCnf : List (List Int)) (bv : List ((Nat × Nat) × Nat)) :
    ∀ (fuel : Nat) (ls ls' : LoopSt),
      bsLoop enc oracle inst fixedCnf.length fuel ls = .ok ls' →
      ls.sst.cnf.take fixedCnf.length = fixedCnf →
      ls.sst.block_vars = bv →
      (∀ e ∈ ls.trace, ∃ lits,
        pbLits bv inst.blocker_costs inst.links = some lits ∧
        e.cnf = fixedCnf ++ (enc lits e.mid e.start).1) →
      ∀ e ∈ ls'.trace, ∃ lits,
        pbLits bv inst.blocker_costs inst.links = some lits ∧
        e.cnf = fixedCnf ++ (enc lits e.mid e.start).1 := by
  intro fuel
  induction fuel with
  | zero =>
    intro ls ls' hrun htake hbv hpre
    unfold bsLoop at hrun
    split at hrun
    · cases hrun
    · injection hrun with hrun
      rw [← hrun]
      exact hpre
  | succ fuel ih =>
    intro ls ls' hrun htake hbv hpre
    unfold bsLoop at hrun
    split at hrun
    · rcases hstep : bsStep enc oracle inst fixedCnf.length ls with e1 | ls1
      · rw [hstep] at hrun
        cases hrun
      · rw [hstep] at hrun
        simp only [Except.bind] at hrun
        unfold bsStep at hstep
        dsimp only at hstep
        rcases hobj : create_objective_constraint enc inst ((ls.c_min + ls.c_max) / 2)
            { ls.sst with cnf := ls.sst.cnf.take fixedCnf.length } with _ | st'
          <;> rw [hobj] at hstep
        · cases hstep
        obtain ⟨lits, hlits, hcnf, hbvEq⟩ := objective_shape enc inst _ _ st' hobj
        have hcnf' : st'.cnf = fixedCnf ++
            (enc lits ((ls.c_min + ls.c_max) / 2) ls.sst.next_aux_var).1 := by
          rw [hcnf, htake]
        have hbv' : st'.block_vars = bv := by rw [hbvEq, ← hbv]
        have hlits' : pbLits bv inst.blocker_costs inst.links = some lits := by
          rw [← hbv]
          exact hlits
        have hnew : ∀ e ∈ ls.trace ++
            [⟨st'.cnf, (ls.c_min + ls.c_max) / 2, ls.sst.next_aux_var⟩], ∃ lits',
            pbLits bv inst.blocker_costs inst.links = some lits' ∧
            e.cnf = fixedCnf ++ (enc lits' e.mid e.start).1 := by
          intro e he
          rcases List.mem_append.mp he with he | he
          · exact hpre e he
          · rcases List.mem_singleton.mp he with rfl
            exact ⟨lits, hlits', hcnf'⟩
        have htake1 : st'.cnf.take fixedCnf.length = fixedCnf := by
          rw [hcnf']
          exact List.take_left fixedCnf _
        dsimp only at hstep
        rcases horc : oracle st'.cnf with _ | m <;> rw [horc] at hstep <;>
          injection hstep with hstep <;> rw [← hstep] at hrun
        · exact ih _ ls' hrun htake1 hbv' hnew
        · exact ih _ ls' hrun htake1 hbv' hnew
    · injection hrun with hrun
      rw [← hrun]
      exact hpre

/-- C6.  At every binary-search iteration the formula submitted to the
oracle is exactly the fixed prefix (the clauses present when the loop
starts, built by `create_variables`, `create_flow_conservation_constraints`
and `create_target_flow_constraint`) followed by the encoder's budget
clauses for the current `c_mid` alone: the truncation
`self.cnf.clauses[:fixed_clause_count]` discards every earlier iteration's
budget clauses before the new ones are appended. -/
theorem c6_formula_frame (enc : PBEnc) (oracle : SatOracle) (inst : Instance)
    (fixedCnf : List (List Int)) (fuel : Nat) (ls ls' : LoopSt)
    (hrun : bsLoop enc oracle inst fixedCnf.length fuel ls = .ok ls')
    (hcnf : ls.sst.cnf = fixedCnf)
    (htr : ls.trace = []) :
    ∀ e ∈ ls'.trace, ∃ lits,
      pbLits ls.sst.block_vars inst.blocker_costs inst.links = some lits ∧
      e.cnf = fixedCnf ++ (enc lits e.mid e.start).1 := by
  refine bsLoop_trace_inv enc oracle inst fixedCnf ls.sst.block_vars fuel ls ls' hrun ?_ rfl ?_
  · rw [hcnf]
    exact List.take_length fixedCnf
  · rw [htr]
    intro e he
    cases he

/-- C6 witness: in the run on the single-bottleneck instance, the first
iteration (budget `c_mid = 1`, encoding counter 6) submitted exactly the
six fixed clauses followed by the encoder's budget clause `¬block`. -/
theorem c6_formula_frame_witness :
    ∃ lits,
      pbLits singleLinkTargetSt.block_vars singleLinkInst.blocker_costs
        singleLinkInst.links = some lits ∧
      ([[3], [-4], [4, 5], [-4, -5], [2, 1, 3, 5], [-2], [-1]] : List (List Int)) =
        singleLinkTargetSt.cnf ++ (subsetEncoder lits 1 6).1 :=
  c6_formula_frame subsetEncoder bruteOracle singleLinkInst singleLinkTargetSt.cnf 4
    { c_min := 0, c_max := 3, sst := singleLinkTargetSt, solution := none, trace := [] }
    _ rfl rfl rfl ⟨[[3], [-4], [4, 5], [-4, -5], [2, 1, 3, 5], [-2], [-1]], 1, 6⟩
    (by decide)

/-- C3 amended witness: the no-validation theorem applied to the concrete
malformed input. -/
theorem c3_amended_no_validation_witness :
    parse_all malformedNodeRows malformedLinkRows malformedService ≠
      .error .malformedInputError :=
  c3_amended_no_validation malformedNodeRows malformedLinkRows malformedService

/-- C8 amended witness: the no-unsolvable-error theorem applied to the
all-queries-unsatisfiable instance. -/
theorem c8_amended_no_unsolvable_error_witness :
    solve_mfbp subsetEncoder bruteOracle reverseLinkInst ≠
      .error .unsolvableInstanceError :=
  c8_amended_no_unsolvable_error subsetEncoder bruteOracle reverseLinkInst

/-- Helper: the inner fold of `cnfMaxVar` never goes below its seed. -/
theorem clauseFold_init_le (c : List Int) :
    ∀ acc : Nat, acc ≤ c.foldl (fun a l => max a l.natAbs) acc := by
  induction c with
  | nil => intro acc; exact le_refl _
  | cons l rest ih =>
    intro acc
    exact le_trans (Nat.le_max_left acc l.natAbs) (ih _)

/-- Helper: the inner fold of `cnfMaxVar` dominates each literal. -/
theorem clauseFold_mem_le (c : List Int) :
    ∀ (acc : Nat) (l : Int), l ∈ c → l.natAbs ≤ c.foldl (fun a l => max a l.natAbs) acc := by
  induction c with
  | nil => intro acc l hl; cases hl
  | cons l0 rest ih =>
    intro acc l hl
    rcases List.mem_cons.mp hl with rfl | hl
    · exact le_trans (Nat.le_max_right acc l.natAbs) (clauseFold_init_le rest _)
    · exact ih _ l hl

/-- Helper: the outer fold of `cnfMaxVar` never goes below its seed. -/
theorem cnfFold_init_le (f : List (List Int)) :
    ∀ acc : Nat,
      acc ≤ f.foldl (fun acc c => c.foldl (fun a l => max a l.natAbs) acc) acc := by
  induction f with
  | nil => intro acc; exact le_refl _
  | cons c rest ih =>
    intro acc
    exact le_trans (clauseFold_init_le c acc) (ih _)

/-- Helper: every literal of a formula is dominated by `cnfMaxVar`. -/
theorem lit_le_cnfMaxVar (f : List (List Int)) :
    ∀ (c : List Int) (l : Int), c ∈ f → l ∈ c → l.natAbs ≤ cnfMaxVar f := by
  unfold cnfMaxVar
  suffices h : ∀ (acc : Nat) (c : List Int) (l : Int), c ∈ f → l ∈ c →
      l.natAbs ≤ f.foldl (fun acc c => c.foldl (fun a l => max a l.natAbs) acc) acc by
    intro c l hc hl
    exact h 0 c l hc hl
  induction f with
  | nil => intro acc c l hc; cases hc
  | cons c0 rest ih =>
    intro acc c l hc hl
    rcases List.mem_cons.mp hc with rfl | hc
    · exact le_trans (clauseFold_mem_le c acc l hl) (cnfFold_init_le rest _)
    · exact ih _ c l hc hl

/-- Helper: a nonzero literal within the variable range evaluates the same
under an assignment reduced modulo `2 ^ n`. -/
theorem litSat_mod (m n : Nat) (l : Int) (h0 : l ≠ 0) (hle : l.natAbs ≤ n) :
    litSat (m % 2 ^ n) l = litSat m l := by
  have habs : 1 ≤ l.natAbs := Int.natAbs_pos.mpr h0
  have hidx : l.natAbs - 1 < n := by omega
  unfold litSat
  by_cases hl : (0 : Int) ≤ l
  · have htn : l.toNat = l.natAbs := by
      rcases l with n' | n'
      · rfl
      · exact absurd hl (not_le.mpr (Int.negSucc_lt_zero n'))
    rw [if_pos hl, if_pos hl, htn, Nat.testBit_mod_two_pow]
    simp [hidx]
  · have htn : (-l).toNat = l.natAbs := by
      rcases l with n' | n'
      · exact absurd (Int.ofNat_nonneg n') hl
      · rfl
    rw [if_neg hl, if_neg hl, htn, Nat.testBit_mod_two_pow]
    simp [hidx]

/-- Helper: satisfaction of a zero-free formula only depends on the
assignment's bits below `cnfMaxVar`. -/
theorem cnfSat_mod (f : List (List Int)) (m : Nat)
    (hnz : ∀ c ∈ f, ∀ l ∈ c, l ≠ 0) :
    cnfSat (m % 2 ^ cnfMaxVar f) f = cnfSat m f := by
  have key : ∀ c ∈ f, clauseSat (m % 2 ^ cnfMaxVar f) c = clauseSat m c := by
    intro c hc
    have key2 : ∀ l ∈ c, litSat (m % 2 ^ cnfMaxVar f) l = litSat m l := fun l hl =>
      litSat_mod m (cnfMaxVar f) l (hnz c hc l hl) (lit_le_cnfMaxVar f c l hc hl)
    unfold clauseSat
    rw [Bool.eq_iff_iff, List.any_eq_true, List.any_eq_true]
    constructor
    · rintro ⟨x, hx, hsat⟩
      refine ⟨x, hx, ?_⟩
      rw [← key2 x hx]
      exact hsat
    · rintro ⟨x, hx, hsat⟩
      refine ⟨x, hx, ?_⟩
      rw [key2 x hx]
      exact hsat
  unfold cnfSat
  rw [Bool.eq_iff_iff, List.all_eq_true, List.all_eq_true]
  constructor
  · intro hall c hc
    rw [← key c hc]
    exact hall c hc
  · intro hall c hc
    rw [key c hc]
    exact hall c hc

/-- Helper: soundness of the concrete oracle — a returned assignment
satisfies the formula (one half of the spec's oracle contract). -/
theorem bruteOracle_sound (f : List (List Int)) (m : Nat)
    (h : bruteOracle f = some m) : cnfSat m f = true := by
  unfold bruteOracle at h
  simpa using List.find?_some h

/-- Helper: completeness of the concrete oracle on zero-free formulas —
if it answers "unsatisfiable", no assignment at all satisfies the formula
(the other half of the spec's oracle contract). -/
theorem bruteOracle_complete (f : List (List Int))
    (hnz : ∀ c ∈ f, ∀ l ∈ c, l ≠ 0)
    (h : bruteOracle f = none) : ∀ m, cnfSat m f = false := by
  intro m
  rw [← cnfSat_mod f m hnz]
  unfold bruteOracle at h
  have hmem : m % 2 ^ cnfMaxVar f ∈ List.range (2 ^ cnfMaxVar f) :=
    List.mem_range.mpr (Nat.mod_lt _ (Nat.pos_pow_of_pos _ (by omega)))
  have := List.find?_eq_none.mp h _ hmem
  exact Bool.not_eq_true _ ▸ Bool.of_not_eq_true this

/-- Helper: correctness of the concrete pseudo-Boolean encoder — for
variables that are genuine (nonzero) identifiers, its clause set is
satisfied exactly when the weighted sum of the true literals is at most
`K` (the spec's encoder contract, with no auxiliary variables used). -/
theorem subsetEncoder_correct (lits : List (Nat × Nat)) (K start m : Nat)
    (hpos : ∀ p ∈ lits, 1 ≤ p.1) :
    cnfSat m (subsetEncoder lits K start).1 = true ↔
      ((lits.filter (fun p => varTrue m p.1)).map (·.2)).sum ≤ K := by
  unfold subsetEncoder cnfSat
  dsimp only
  rw [List.all_eq_true]
  constructor
  · intro hall
    by_contra hgt
    push_neg at hgt
    have hsub : List.Sublist (lits.filter (fun p => varTrue m p.1)) lits :=
      List.filter_sublist lits
    have hmemfil : lits.filter (fun p => varTrue m p.1) ∈
        (lits.sublists).filter (fun s => K < (s.map (·.2)).sum) :=
      List.mem_filter.mpr ⟨List.mem_sublists.mpr hsub, by simpa using hgt⟩
    have hcl := hall _ (List.mem_map.mpr ⟨_, hmemfil, rfl⟩)
    unfold clauseSat at hcl
    rw [List.any_eq_true] at hcl
    obtain ⟨x, hx, hxsat⟩ := hcl
    obtain ⟨p, hp, rfl⟩ := List.mem_map.mp hx
    have hp1 : 1 ≤ p.1 := hpos p (hsub.subset (by simpa using hp))
    rw [litSat_neg m p.1 hp1, Bool.not_eq_true'] at hxsat
    have := (List.mem_filter.mp hp).2
    simp only at this
    rw [hxsat] at this
    cases this
  · intro hle clause hclause
    obtain ⟨s, hsfil, rfl⟩ := List.mem_map.mp hclause
    obtain ⟨hssub, hsw⟩ := List.mem_filter.mp hsfil
    have hsub := List.mem_sublists.mp hssub
    have hK : K < (s.map (·.2)).sum := by simpa using hsw
    unfold clauseSat
    rw [List.any_eq_true]
    by_contra hno
    push_neg at hno
    have hall' : ∀ p ∈ s, varTrue m p.1 = true := by
      intro p hp
      by_contra hf
      refine hno (-(p.1 : Int)) (List.mem_map.mpr ⟨p, hp, rfl⟩) ?_
      rw [litSat_neg m p.1 (hpos p (hsub.subset hp)), Bool.not_eq_true']
      exact Bool.not_eq_true _ ▸ Bool.of_not_eq_true hf
    have hfix : s.filter (fun p => varTrue m p.1) = s :=
      List.filter_eq_self.mpr hall'
    have hsub2 : List.Sublist s (lits.filter (fun p => varTrue m p.1)) := by
      rw [← hfix]
      exact List.Sublist.filter _ hsub
    have hsum : (s.map (·.2)).sum ≤
        ((lits.filter (fun p => varTrue m p.1)).map (·.2)).sum :=
      List.Sublist.sum_le_sum (List.Sublist.map _ hsub2) (fun a _ => Nat.zero_le a)
    omega
